import Mathlib

/-!
# Verification of the cppdlr DLR library

Shallow embedding, in exact arithmetic, of the cppdlr library: the analytic
continuation kernels (`dlr_kernels.cpp`), the fine-grid parameter selection and
DLR construction entry points (`dlr_build.hpp` / `dlr_imfreq.cpp`), the
imaginary-frequency transform operator `imfreq_ops` (`dlr_imfreq.hpp` /
`dlr_imfreq.cpp`), its HDF5 serialization layout, and the pivoted
reorthogonalized Gram-Schmidt routine `pivrgs`.

C++ `double` arithmetic is modelled by `ℝ` (exact arithmetic), `dcomplex` by
`ℂ`; `nda` arrays with a leading DLR axis of size `r` and trailing axes
flattened to one multi-RHS axis of size `k` are modelled by
`Matrix (Fin r) (Fin k) ℂ`; flat row-major `nda` storage is modelled by
`List ℂ` where allocation behaviour matters.
-/

namespace Cppdlr

/-! ## Kernel primitives (`dlr_kernels.cpp`) -/

/-- `k_it_abs(t, om)` from `dlr_kernels.cpp`: the two-branch evaluation of the
imaginary-time analytic continuation kernel for `t ≥ 0`.  Source:
`if (om >= 0.0) return exp(-t*om)/(1.0+exp(-om)); else return
exp((1.0-t)*om)/(1.0+exp(om));`. -/
noncomputable def k_it_abs (t om : ℝ) : ℝ :=
  if 0 ≤ om then Real.exp (-t * om) / (1 + Real.exp (-om))
  else Real.exp ((1 - t) * om) / (1 + Real.exp om)

/-- `k_it(t, om)` from `dlr_kernels.cpp`: `if (t >= 0) return k_it_abs(t, om);
else return k_it_abs(-t, -om);`. -/
noncomputable def k_it (t om : ℝ) : ℝ :=
  if 0 ≤ t then k_it_abs t om else k_it_abs (-t) (-om)

/-- Particle statistic (`statistic_t`): `Boson = 0`, `Fermion = 1`. -/
inductive statistic_t
  | Boson
  | Fermion
deriving DecidableEq

export statistic_t (Boson Fermion)

/-- The integer value of the statistic: the sign `s` in the Matsubara index
`2n + s` (`s = 1` for fermions, `s = 0` for bosons). -/
def statVal : statistic_t → ℤ
  | Boson => 0
  | Fermion => 1

/-- Modelled from the spec: the three-argument imaginary-frequency kernel
`k_if(n, om, statistic)` used by `build_k_if`, `build_evalvec` and
`coefs2eval`; its definition is not among the repository files available here
(only the two-argument `k_if(n, om) = -1/(n*pi*i - om)` of `dlr_kernels.cpp`
is, which the callers compose as `k_if(2*n + statistic, om)`).  The spec gives
`K(n, ω, s) = −1 / ((2n + s)·π·i − ω)`, consistent with that composition. -/
noncomputable def k_if (n : ℤ) (om : ℝ) (s : statistic_t) : ℂ :=
  -1 / (((2 * n + statVal s : ℤ) : ℂ) * (Real.pi : ℂ) * Complex.I - (om : ℂ))

/-! ## Fine grid parameters (`fineparams`, `dlr_imfreq.cpp` lines 102-115) -/

/-- The C++ `static_cast<int>` / `(int)` conversion from `double`:
truncation toward zero. -/
noncomputable def trunc (x : ℝ) : ℤ :=
  if 0 ≤ x then ⌊x⌋ else ⌈x⌉

/-- Fields of the `fineparams` class (`dlr_build.hpp`). -/
structure fineparams where
  lambda : ℝ
  p : ℤ
  nmax : ℤ
  npom : ℤ
  npt : ℤ
  nom : ℤ
  nt : ℤ

/-- The `fineparams(lambda, p)` constructor's member initializers
(`dlr_imfreq.cpp` lines 102-111):
`nmax = max((int)ceil(lambda), 20)`,
`npom = (int)max(ceil(log(lambda)/log(2.0)), 1.0)`,
`npt  = (int)max(ceil(log(lambda)/log(2.0)) - 2, 1.0)`,
`nom = 2*p*npom`, `nt = 2*p*npt`.  `ceil` on a `double` produces the exact
integer value as a `double`, modelled as `(↑⌈x⌉ : ℝ)`; the `int` casts
truncate toward zero (`trunc`). -/
noncomputable def fineparams.ofParams (lambda : ℝ) (p : ℤ) : fineparams :=
  let npom := trunc (max ((⌈Real.log lambda / Real.log 2⌉ : ℤ) : ℝ) 1)
  let npt := trunc (max (((⌈Real.log lambda / Real.log 2⌉ : ℤ) : ℝ) - 2) 1)
  { lambda := lambda
    p := p
    nmax := max (trunc ((⌈lambda⌉ : ℤ) : ℝ)) 20
    npom := npom
    npt := npt
    nom := 2 * p * npom
    nt := 2 * p * npt }

/-- `fineparams(lambda)` with the default panel order `p = 24`
(`fineparams(double lambda, int p = 24)`). -/
noncomputable def fineparams.default (lambda : ℝ) : fineparams :=
  fineparams.ofParams lambda 24

/-- The error behaviour of the `fineparams` constructor body
(`dlr_imfreq.cpp` lines 113-114): `if (lambda <= 0) throw
std::runtime_error("Choose lambda > 0."); if (p <= 0) throw
std::runtime_error("Choose p > 0.");`. -/
noncomputable def fineparams_check (lambda : ℝ) (p : ℤ) : Except String Unit :=
  if lambda ≤ 0 then Except.error "Choose lambda > 0."
  else if p ≤ 0 then Except.error "Choose p > 0."
  else Except.ok ()

/-- Whether `build_dlr_rf` emits its diagnostic warning to `std::cerr`
(`dlr_imfreq.cpp` lines 330-332): `if (eps < 1e-14) std::cerr << "Warning:
..."` — a warning only, execution proceeds. -/
noncomputable def build_dlr_rf_warns (eps : ℝ) : Bool :=
  decide (eps < 1 / 10 ^ 14)

/-- The error behaviour of `build_dlr_rf(lambda, eps)` (`dlr_imfreq.cpp`
lines 328-357): the body contains no `throw`; the only runtime error that can
propagate is the one raised by `fineparams(lambda)` (called with the default
`p = 24`).  `eps` is never validated: `eps < 1e-14` only prints a warning and
proceeds. -/
noncomputable def build_dlr_rf_check (lambda eps : ℝ) : Except String Unit :=
  fineparams_check lambda 24

/-! ## Imaginary-frequency kernel matrix and the `imfreq_ops` constructor
(`dlr_imfreq.cpp` lines 24-55, 303-326) -/

/-- Number of rows of the `build_k_if` kernel matrix: `2*nmax` for fermions
(`n` ranges over `[-nmax, nmax)`), `2*nmax + 1` for bosons (`n` ranges over
`[-nmax, nmax]`). -/
def kRows (s : statistic_t) (nmax : ℕ) : ℕ :=
  match s with
  | Fermion => 2 * nmax
  | Boson => 2 * nmax + 1

/-- `build_k_if(nmax, om, statistic)` (`dlr_imfreq.cpp` lines 303-326):
`kmat(nmax + n, j) = k_if(n, om(j), statistic)`, so row `m` holds the kernel
at Matsubara index `n = m - nmax`. -/
noncomputable def build_k_if {nom : ℕ} (nmax : ℕ) (om : Fin nom → ℝ)
    (s : statistic_t) : Matrix (Fin (kRows s nmax)) (Fin nom) ℂ :=
  Matrix.of fun m j => k_if ((m : ℤ) - nmax) (om j) s

/-- Number of DLR imaginary-frequency nodes (`dlr_imfreq.cpp` line 29):
`niom = (statistic == Boson && symmetrize) ? r + 1 : r`. -/
def niom (r : ℕ) (s : statistic_t) (symmetrize : Bool) : ℕ :=
  match s, symmetrize with
  | Boson, true => r + 1
  | _, _ => r

/-- The `dlr_if` vector computed by the `imfreq_ops` constructor
(`dlr_imfreq.cpp` line 41): `dlr_if(i) = piv(i) - nmax`, where `piv` is the
(sorted) pivot vector produced by `pivrgs` / `pivrgs_sym` on the kernel
matrix.  The pivots are abstracted as a function into the kernel-matrix row
indices. -/
def dlr_if {r : ℕ} {s : statistic_t} {symmetrize : Bool} (nmax : ℕ)
    (piv : Fin (niom r s symmetrize) → Fin (kRows s nmax)) :
    Fin (niom r s symmetrize) → ℤ :=
  fun i => (piv i : ℤ) - nmax

/-- The `cf2if` matrix computed by the `imfreq_ops` constructor
(`dlr_imfreq.cpp` lines 44-46): `cf2if(i, j) = kmat(piv(i), j)` for all
`i < niom`, `j < r` — with no further rescaling on any path. -/
noncomputable def cf2if {r : ℕ} {s : statistic_t} {symmetrize : Bool}
    (nmax : ℕ) (dlr_rf : Fin r → ℝ)
    (piv : Fin (niom r s symmetrize) → Fin (kRows s nmax)) :
    Matrix (Fin (niom r s symmetrize)) (Fin r) ℂ :=
  Matrix.of fun i j => build_k_if nmax dlr_rf s (piv i) j

/-- The sorting of the pivot vector done by the constructor
(`std::sort(piv.begin(), piv.end())`), modelled on a list of row indices. -/
def sortPiv (piv : List ℕ) : List ℕ :=
  piv.insertionSort (· ≤ ·)

/-- The DLR imaginary-frequency node list as computed by the constructor from
an unsorted pivot list: sort ascending, then shift every entry by `-nmax`
(`dlr_imfreq.cpp` lines 40-41).  This is the vector `get_ifnodes()` returns. -/
def dlr_if_list (nmax : ℕ) (piv : List ℕ) : List ℤ :=
  (sortPiv piv).map fun m : ℕ => (m : ℤ) - (nmax : ℤ)

/-! ## Transforms of `imfreq_ops` (`dlr_imfreq.hpp`) -/

/-- `build_evalvec(n)` (`dlr_imfreq.cpp` lines 65-71):
`kvec(l) = k_if(n, dlr_rf(l), statistic)`. -/
noncomputable def build_evalvec {r : ℕ} (dlr_rf : Fin r → ℝ)
    (s : statistic_t) (n : ℤ) : Fin r → ℂ :=
  fun l => k_if n (dlr_rf l) s

/-- The core (β-free) `vals2coefs(g)` overload, in exact arithmetic.  The
source reshapes `g` to an `r × k` matrix, copies its transpose (LAPACK wants
the right-hand-side number to be the slow index of the row-major buffer, i.e.
the buffer is the `r × k` matrix column-major), solves the multi-RHS system
with the stored LU factors of `cf2if` via `getrs`, and transposes back: the
exact-arithmetic effect is left multiplication by `cf2if⁻¹`. -/
noncomputable def vals2coefs_core {r k : ℕ}
    (cf2if : Matrix (Fin r) (Fin r) ℂ) (g : Matrix (Fin r) (Fin k) ℂ) :
    Matrix (Fin r) (Fin k) ℂ :=
  cf2if⁻¹ * g

/-- `vals2coefs(beta, g) = vals2coefs(make_regular(g / beta))`
(`dlr_imfreq.hpp`): the β factor enters as an elementwise divide on input. -/
noncomputable def vals2coefs {r k : ℕ} (cf2if : Matrix (Fin r) (Fin r) ℂ)
    (beta : ℝ) (g : Matrix (Fin r) (Fin k) ℂ) : Matrix (Fin r) (Fin k) ℂ :=
  vals2coefs_core cf2if (Matrix.of fun i j => g i j / (beta : ℂ))

/-- The core (β-free) `coefs2vals(gc)` overload: reshape to `r × k` and apply
the stored `cf2if` matrix (`g = cf2if * gc_rs`). -/
noncomputable def coefs2vals_core {m r k : ℕ}
    (cf2if : Matrix (Fin m) (Fin r) ℂ) (gc : Matrix (Fin r) (Fin k) ℂ) :
    Matrix (Fin m) (Fin k) ℂ :=
  cf2if * gc

/-- `coefs2vals(beta, gc) = coefs2vals(make_regular(beta * gc))`: the β factor
is applied as an elementwise multiply on input. -/
noncomputable def coefs2vals {m r k : ℕ} (cf2if : Matrix (Fin m) (Fin r) ℂ)
    (beta : ℝ) (gc : Matrix (Fin r) (Fin k) ℂ) : Matrix (Fin m) (Fin k) ℂ :=
  coefs2vals_core cf2if (Matrix.of fun i j => (beta : ℂ) * gc i j)

/-- The scalar-valued branch of `coefs2eval(gc, n)` (`dlr_imfreq.hpp`,
`T::rank == 1`): `g = Σ_l k_if(n, dlr_rf(l), statistic) * gc(l)`. -/
noncomputable def coefs2eval {r : ℕ} (dlr_rf : Fin r → ℝ) (s : statistic_t)
    (gc : Fin r → ℂ) (n : ℤ) : ℂ :=
  ∑ l, k_if n (dlr_rf l) s * gc l

/-- The array-valued branch of `coefs2eval(gc, n)` (`dlr_imfreq.hpp`): reshape
`gc` to `r × k`, build `kvec = build_evalvec(n)`, and contract the first axis:
`transpose(gc_rs) * kvec`. -/
noncomputable def coefs2eval_array {r k : ℕ} (dlr_rf : Fin r → ℝ)
    (s : statistic_t) (gc : Matrix (Fin r) (Fin k) ℂ) (n : ℤ) : Fin k → ℂ :=
  Matrix.mulVec gc.transpose (build_evalvec dlr_rf s n)

/-- `coefs2vals` specialised to a single trailing column (a vector-valued
`gc` is reshaped by the source to an `r × 1` matrix): matrix-vector product
with `cf2if`. -/
noncomputable def coefs2vals_vec {m r : ℕ} (cf2if : Matrix (Fin m) (Fin r) ℂ)
    (gc : Fin r → ℂ) : Fin m → ℂ :=
  Matrix.mulVec cf2if gc

/-! ## HDF5 serialization of `imfreq_ops` (`dlr_imfreq.hpp`) -/

/-- `imfreq_ops::hdf5_format()`: `return "cppdlr::imfreq_ops";`. -/
def imfreq_ops_hdf5_format : String := "cppdlr::imfreq_ops"

/-- What a writer call produces: the subgroup's self-describing format tag
and the list of field names written into it, in order. -/
structure H5Group where
  format_tag : String
  fields : List String
deriving DecidableEq

/-- The `h5_write(fg, subgroup_name, m)` friend function of `imfreq_ops`:
it creates the subgroup, writes the format tag string
(`write_hdf5_format_as_string(gr, "cppdlr::imfreq_ops")`), then writes the
fields `lambda`, `statistic`, `rf`, `if`, `cf2if`, `if2cf_lu`, `if2cf_piv`. -/
def imfreq_ops_h5_write : H5Group :=
  { format_tag := "cppdlr::imfreq_ops"
    fields := ["lambda", "statistic", "rf", "if", "cf2if", "if2cf_lu", "if2cf_piv"] }

/-- The format tag `h5_read` checks for
(`assert_hdf5_format_as_string(gr, "cppdlr::imfreq_ops", true)`). -/
def imfreq_ops_h5_read_expected_tag : String := "cppdlr::imfreq_ops"

/-! ## Allocation model of the transforms

`nda` arrays are flat row-major buffers.  A heap is a list of allocated
buffers; a buffer is identified by its position, and an allocation appends.
The bodies of `vals2coefs` / `coefs2vals` are transcribed step by step:
`reshape` is a view (no allocation), `nda::matrix<dcomplex>(transpose(...))`
allocates a copy, `getrs` overwrites its right-hand-side buffer in place, and
`return` hands the caller the freshly built result buffer. -/

/-- Row-major copy of the transpose of a `rows × cols` flat buffer
(`nda::matrix<dcomplex>(transpose(g_rs))`). -/
def transposeFlat (rows cols : ℕ) (a : List ℂ) : List ℂ :=
  (List.range cols).flatMap fun j => (List.range rows).map fun i => a.getD (i * cols + j) 0

/-- Exact-arithmetic content written by `getrs(if2cf.lu, gct, if2cf.piv)` into
the buffer `gct`: the buffer is the row-major `nrhs × r` transpose, i.e. the
column-major `r × nrhs` right-hand side; the LU solve with the stored factors
of `cf2if` replaces column `j` by `cf2if⁻¹` applied to it. -/
noncomputable def getrsFlat {r : ℕ} (cf2if : Matrix (Fin r) (Fin r) ℂ)
    (nrhs : ℕ) (b : List ℂ) : List ℂ :=
  (List.range nrhs).flatMap fun j =>
    (List.finRange r).map fun i => ∑ l : Fin r, cf2if⁻¹ i l * b.getD (j * r + (l : ℕ)) 0

/-- Row-major `m × k` flat buffer holding `cf2if * gc_rs`
(the matrix product allocated by `coefs2vals`). -/
noncomputable def matmulFlat {m r : ℕ} (cf2if : Matrix (Fin m) (Fin r) ℂ)
    (k : ℕ) (b : List ℂ) : List ℂ :=
  (List.finRange m).flatMap fun i =>
    (List.range k).map fun j => ∑ l : Fin r, cf2if i l * b.getD ((l : ℕ) * k + j) 0

/-- The body of the β-free `vals2coefs(g)` on the allocation model, for the
caller's buffer at heap position `gid`:
reshape (view), allocate `gct` as the transposed copy, run `getrs` in place on
`gct`, allocate `gc` as the transpose of `gct`, return `gc` (reshaped view).
Returns the new heap and the heap position of the returned array. -/
noncomputable def vals2coefs_heap {r : ℕ} (cf2if : Matrix (Fin r) (Fin r) ℂ)
    (h : List (List ℂ)) (gid : ℕ) : List (List ℂ) × ℕ :=
  let g := h.getD gid []
  let k := g.length / r
  let gct := transposeFlat r k g
  let h1 := h ++ [gct]
  let h2 := h1.set h.length (getrsFlat cf2if k (h1.getD h.length []))
  let gc := transposeFlat k r (h2.getD h.length [])
  (h2 ++ [gc], h.length + 1)

/-- The body of the β-free `coefs2vals(gc)` on the allocation model: reshape
(view), allocate the product `g = cf2if * gc_rs`, return it. -/
noncomputable def coefs2vals_heap {m r : ℕ} (cf2if : Matrix (Fin m) (Fin r) ℂ)
    (h : List (List ℂ)) (gid : ℕ) : List (List ℂ) × ℕ :=
  let gc := h.getD gid []
  let k := gc.length / r
  (h ++ [matmulFlat cf2if k gc], h.length)

/-! ## Pivoted reorthogonalized Gram-Schmidt (`pivrgs`)

Modelled from the spec: the implementation of `pivrgs` (in `utils.cpp`) is not
among the repository files available here — only its test
(`test/c++/pivrgs.cpp`) is.  Spec §4.3: maintain the residual rows in place;
at each step pick the remaining row with largest Euclidean norm (ties: lowest
index wins), normalize it into the next row of `Q`, and orthogonalize all
other remaining rows against it with two passes of classical Gram-Schmidt;
stop when the current pivot norm is below `ε ·` (first pivot norm).  Returns
`(Q, norms, piv)` where `norms i` is the pivot norm at step `i` and `piv` the
selected row indices in the order chosen. -/

/-- Squared Euclidean norm of a row. -/
def rowNormSq {n : ℕ} (v : Fin n → ℝ) : ℝ := ∑ i, v i * v i

/-- Euclidean norm of a row. -/
noncomputable def rowNorm {n : ℕ} (v : Fin n → ℝ) : ℝ := Real.sqrt (rowNormSq v)

/-- Normalization of a pivot row into a row of `Q`. -/
noncomputable def normalizeRow {n : ℕ} (v : Fin n → ℝ) : Fin n → ℝ :=
  fun i => v i / rowNorm v

/-- One pass of classical Gram-Schmidt of `v` against the unit row `q`:
`v ← v − ⟨v, q⟩ q`. -/
def orth {n : ℕ} (q v : Fin n → ℝ) : Fin n → ℝ :=
  fun i => v i - (∑ l, v l * q l) * q i

/-- Two passes (the "reorthogonalized" in the name). -/
def orth2 {n : ℕ} (q v : Fin n → ℝ) : Fin n → ℝ :=
  orth q (orth q v)

/-- Select the remaining row of largest norm; on ties the earliest entry
(lowest remaining index) wins.  Returns the pivot and the other entries in
their original order. -/
noncomputable def pickMax {n : ℕ} :
    List (ℕ × (Fin n → ℝ)) →
      Option ((ℕ × (Fin n → ℝ)) × List (ℕ × (Fin n → ℝ)))
  | [] => none
  | a :: rest =>
    match pickMax rest with
    | none => some (a, [])
    | some (b, rest') =>
      if rowNorm a.2 < rowNorm b.2 then some (b, a :: rest') else some (a, rest)

/-- The main loop of `pivrgs`, keeping the pivot residual (not yet normalized)
together with its original row index.  The fuel is the number of remaining
rows at entry. -/
noncomputable def pivrgsGo {n : ℕ} (thresh : ℝ) :
    ℕ → List (ℕ × (Fin n → ℝ)) → List ((Fin n → ℝ) × ℕ)
  | 0, _ => []
  | fuel + 1, L =>
    match pickMax L with
    | none => []
    | some (p, rest) =>
      if rowNorm p.2 < thresh then []
      else
        (p.2, p.1) ::
          pivrgsGo thresh fuel (rest.map fun q => (q.1, orth2 (normalizeRow p.2) q.2))

/-- `pivrgs(A, eps)`: rows of `A` are indexed by position; the stopping
threshold is `eps` times the first pivot norm (the relative-tolerance
interpretation of `eps`).  Returns `(Q, norms, piv)`. -/
noncomputable def pivrgs {n : ℕ} (A : List (Fin n → ℝ)) (eps : ℝ) :
    List (Fin n → ℝ) × List ℝ × List ℕ :=
  let indexed := (List.range A.length).zip A
  match pickMax indexed with
  | none => ([], [], [])
  | some (p, _) =>
    let out := pivrgsGo (eps * rowNorm p.2) A.length indexed
    (out.map fun s => normalizeRow s.1, out.map fun s => rowNorm s.1,
      out.map fun s => s.2)

/-- Renumbering of a run's output rows with consecutive indices starting at
`k` (the index values a run carries when its input rows are indexed
`k, k+1, ...`). -/
def renum {α : Type} (k : ℕ) (out : List (α × ℕ)) : List (α × ℕ) :=
  List.zipWith (fun i s => (s.1, i)) (List.range' k out.length) out

/-! ## Theorems -/

/-- **C5.** For every relative-format `τ ∈ [−1,1] \ {0}` and every real `ω`,
`k_it(τ, ω)` equals `exp(−τω)/(1+exp(−ω))` when `τ ≥ 0` and `ω ≥ 0`, equals
`exp((1−τ)ω)/(1+exp(ω))` when `τ ≥ 0` and `ω < 0`, and equals `k_it(−τ, −ω)`
when `τ < 0`. -/
theorem k_it_branch_values (t om : ℝ) (hlo : -1 ≤ t) (hhi : t ≤ 1)
    (hne : t ≠ 0) :
    (0 ≤ t → 0 ≤ om → k_it t om = Real.exp (-t * om) / (1 + Real.exp (-om))) ∧
    (0 ≤ t → om < 0 → k_it t om = Real.exp ((1 - t) * om) / (1 + Real.exp om)) ∧
    (t < 0 → k_it t om = k_it (-t) (-om)) := by
  refine ⟨fun ht hom => ?_, fun ht hom => ?_, fun ht => ?_⟩
  · rw [k_it, if_pos ht, k_it_abs, if_pos hom]
  · rw [k_it, if_pos ht, k_it_abs, if_neg (not_le.mpr hom)]
  · rw [k_it, if_neg (not_le.mpr ht), k_it,
      if_pos (le_of_lt (neg_pos.mpr ht))]

/-- Witness for C5 at `τ = 1/2`, `ω = 1`. -/
theorem k_it_branch_values_witness :
    (-1 ≤ (1/2 : ℝ) ∧ (1/2 : ℝ) ≤ 1 ∧ (1/2 : ℝ) ≠ 0) ∧
    ((0 ≤ (1/2 : ℝ) → 0 ≤ (1 : ℝ) →
        k_it (1/2) 1 = Real.exp (-(1/2) * 1) / (1 + Real.exp (-1))) ∧
      (0 ≤ (1/2 : ℝ) → (1 : ℝ) < 0 →
        k_it (1/2) 1 = Real.exp ((1 - 1/2) * 1) / (1 + Real.exp 1)) ∧
      ((1/2 : ℝ) < 0 → k_it (1/2) 1 = k_it (-(1/2)) (-1))) :=
  ⟨⟨by norm_num, by norm_num, by norm_num⟩,
    k_it_branch_values (1/2) 1 (by norm_num) (by norm_num) (by norm_num)⟩

/-- The C cast of an exact integer value is that integer. -/
theorem trunc_intCast (n : ℤ) : trunc (n : ℝ) = n := by
  rw [trunc]
  split_ifs with h
  · exact Int.floor_intCast n
  · exact Int.ceil_intCast n

/-- `trunc` applied to a `double`-side `max` of an exact integer with `1`. -/
theorem trunc_max_one (a : ℤ) : trunc (max (a : ℝ) 1) = max a 1 := by
  have : (max (a : ℝ) 1) = ((max a 1 : ℤ) : ℝ) := by
    rcases le_total a 1 with h | h
    · rw [max_eq_right h, max_eq_right (by exact_mod_cast h : (a : ℝ) ≤ 1)]
      norm_num
    · rw [max_eq_left h, max_eq_left (by exact_mod_cast h : (1 : ℝ) ≤ a)]
  rw [this, trunc_intCast]

/-- **C6.** For every `Λ > 0` and panel order `p > 0`, the `fineparams`
constructor sets `nmax = max(⌈Λ⌉, 20)`, `npom = max(⌈log₂Λ⌉, 1)`,
`npt = max(⌈log₂Λ⌉ − 2, 1)`, `nom = 2·p·npom` and `nt = 2·p·npt`, and the
default panel order is `p = 24`. -/
theorem fineparams_field_values (lambda : ℝ) (p : ℤ) (hl : 0 < lambda)
    (hp : 0 < p) :
    (fineparams.ofParams lambda p).nmax = max ⌈lambda⌉ 20 ∧
    (fineparams.ofParams lambda p).npom = max ⌈Real.logb 2 lambda⌉ 1 ∧
    (fineparams.ofParams lambda p).npt = max (⌈Real.logb 2 lambda⌉ - 2) 1 ∧
    (fineparams.ofParams lambda p).nom =
      2 * p * (fineparams.ofParams lambda p).npom ∧
    (fineparams.ofParams lambda p).nt =
      2 * p * (fineparams.ofParams lambda p).npt ∧
    (fineparams.default lambda).p = 24 := by
  have hlogb : Real.logb 2 lambda = Real.log lambda / Real.log 2 := by
    rw [Real.logb]
  refine ⟨?_, ?_, ?_, rfl, rfl, rfl⟩
  · exact congrArg (fun z => max z 20) (trunc_intCast _)
  · rw [fineparams.ofParams, hlogb]
    exact trunc_max_one _
  · rw [fineparams.ofParams, hlogb]
    have : (((⌈Real.log lambda / Real.log 2⌉ : ℤ) : ℝ) - 2) =
        ((⌈Real.log lambda / Real.log 2⌉ - 2 : ℤ) : ℝ) := by push_cast; ring
    rw [this]
    exact trunc_max_one _

/-- Witness for C6 at `Λ = 8`, `p = 24`. -/
theorem fineparams_field_values_witness :
    (0 < (8 : ℝ) ∧ 0 < (24 : ℤ)) ∧
    ((fineparams.ofParams 8 24).nmax = max ⌈(8 : ℝ)⌉ 20 ∧
      (fineparams.ofParams 8 24).npom = max ⌈Real.logb 2 8⌉ 1 ∧
      (fineparams.ofParams 8 24).npt = max (⌈Real.logb 2 8⌉ - 2) 1 ∧
      (fineparams.ofParams 8 24).nom =
        2 * 24 * (fineparams.ofParams 8 24).npom ∧
      (fineparams.ofParams 8 24).nt =
        2 * 24 * (fineparams.ofParams 8 24).npt ∧
      (fineparams.default 8).p = 24) :=
  ⟨⟨by norm_num, by norm_num⟩,
    fineparams_field_values 8 24 (by norm_num) (by norm_num)⟩

/-- Characterization of the `fineparams` constructor's validation. -/
theorem fineparams_check_ok (lambda : ℝ) (p : ℤ) :
    fineparams_check lambda p = Except.ok () ↔ 0 < lambda ∧ 0 < p := by
  rw [fineparams_check]
  split_ifs with ha hb
  · constructor
    · intro h; exact absurd h (by simp)
    · rintro ⟨h, -⟩; exact absurd ha (not_le.mpr h)
  · constructor
    · intro h; exact absurd h (by simp)
    · rintro ⟨-, h⟩; exact absurd hb (not_le.mpr h)
  · exact ⟨fun _ => ⟨not_le.mp ha, not_le.mp hb⟩, fun _ => rfl⟩

/-- **C4 (counterexample).** At `Λ = 1`, `ε = 2 ∉ (0,1)`, `build_dlr_rf`
raises no runtime error: its error behaviour succeeds, refuting the claim
that DLR basis construction fails fast whenever `ε` is outside `(0,1)`. -/
theorem build_dlr_rf_eps_not_validated :
    ¬(0 < (2 : ℝ) ∧ (2 : ℝ) < 1) ∧
      build_dlr_rf_check 1 2 = Except.ok () := by
  constructor
  · norm_num
  · rw [build_dlr_rf_check, fineparams_check, if_neg (by norm_num),
      if_neg (by norm_num)]

/-- **C4 (amended).** `fineparams` (and hence every DLR construction) throws a
runtime error exactly when `Λ ≤ 0` or `p ≤ 0`; `build_dlr_rf` performs no
validation of `ε` at all — its only failure condition is `Λ ≤ 0` (via
`fineparams` with the default `p = 24`); `ε < 10⁻¹⁴` merely emits a warning
and proceeds. -/
theorem construction_validation (lambda : ℝ) (p : ℤ) (eps : ℝ) :
    (fineparams_check lambda p = Except.ok () ↔ 0 < lambda ∧ 0 < p) ∧
    (build_dlr_rf_check lambda eps = Except.ok () ↔ 0 < lambda) := by
  refine ⟨fineparams_check_ok lambda p, ?_⟩
  rw [build_dlr_rf_check, fineparams_check_ok]
  exact ⟨fun h => h.1, fun h => ⟨h, by norm_num⟩⟩

/-- **C8 (counterexample).** The format tag written by `h5_write` for an
`imfreq_ops` object is not `"dlr::imfreq_ops"`. -/
theorem imfreq_ops_format_tag_not_dlr :
    imfreq_ops_h5_write.format_tag ≠ "dlr::imfreq_ops" := by
  decide

/-- **C8 (amended).** Serializing an `imfreq_ops` object writes a subgroup
whose self-describing format tag is the string `"cppdlr::imfreq_ops"` (the
value of `imfreq_ops::hdf5_format()`, and the tag `h5_read` checks for),
alongside the fields `lambda`, `statistic`, `rf`, `if`, `cf2if`, `if2cf_lu`,
and `if2cf_piv`. -/
theorem imfreq_ops_h5_layout :
    imfreq_ops_h5_write.format_tag = imfreq_ops_hdf5_format ∧
    imfreq_ops_h5_write.format_tag = imfreq_ops_h5_read_expected_tag ∧
    imfreq_ops_h5_write.fields =
      ["lambda", "statistic", "rf", "if", "cf2if", "if2cf_lu", "if2cf_piv"] :=
  ⟨rfl, rfl, rfl⟩

/-- The imaginary-frequency kernel does not vanish (its numerator is `−1`). -/
theorem k_if_ne_zero (n : ℤ) (om : ℝ) (s : statistic_t)
    (h : ((2 * n + statVal s : ℤ) : ℂ) * (Real.pi : ℂ) * Complex.I -
        (om : ℂ) ≠ 0) :
    k_if n om s ≠ 0 := by
  rw [k_if]
  exact div_ne_zero (by norm_num) h

/-- **C3 (counterexample).** A symmetrized bosonic construction with `r = 1`,
`nmax = 1`, DLR frequency `ω₀ = 0` and pivot rows `{0, 2}` (the symmetric
Matsubara pair `n = ∓1`): the constructor stores the unscaled kernel value
`cf2if(0,0) = K(−1, 0, Boson) = 1/(2πi) ≠ 0`, whereas the claimed scaling by
`tanh(ω₀/2) = tanh(0) = 0` would make it `0`.  The symmetrized bosonic path
does not multiply the columns of `cf2if` by `tanh(ω_j/2)`. -/
theorem cf2if_sym_boson_no_tanh_scaling :
    @cf2if 1 Boson true 1 (fun _ => 0)
        ![⟨0, by decide⟩, ⟨2, by decide⟩] ⟨0, by decide⟩ ⟨0, by decide⟩ ≠
      (Real.tanh ((0 : ℝ) / 2) : ℂ) *
        k_if
          (@dlr_if 1 Boson true 1
            ![⟨0, by decide⟩, ⟨2, by decide⟩] ⟨0, by decide⟩) 0 Boson := by
  have hden : ((2 * (-1 : ℤ) + statVal Boson : ℤ) : ℂ) * (Real.pi : ℂ) *
      Complex.I - ((0 : ℝ) : ℂ) ≠ 0 := by
    have hpi : (Real.pi : ℂ) ≠ 0 := Complex.ofReal_ne_zero.mpr Real.pi_ne_zero
    simp only [statVal, Complex.ofReal_zero, sub_zero]
    refine mul_ne_zero (mul_ne_zero ?_ hpi) Complex.I_ne_zero
    norm_num
  have hne : k_if (-1) 0 Boson ≠ 0 := k_if_ne_zero (-1) 0 Boson hden
  have hL : @cf2if 1 Boson true 1 (fun _ => 0)
      ![⟨0, by decide⟩, ⟨2, by decide⟩] ⟨0, by decide⟩ ⟨0, by decide⟩ =
      k_if (-1) 0 Boson := by
    show k_if ((((⟨0, by decide⟩ : Fin (kRows Boson 1)) : ℕ) : ℤ) - 1) 0
        Boson = k_if (-1) 0 Boson
    norm_num
  have hR : @dlr_if 1 Boson true 1
      ![⟨0, by decide⟩, ⟨2, by decide⟩] ⟨0, by decide⟩ = -1 := by
    show (((⟨0, by decide⟩ : Fin (kRows Boson 1)) : ℕ) : ℤ) - 1 = -1
    norm_num
  rw [hL, hR]
  simp only [zero_div, Real.tanh_zero, Complex.ofReal_zero, zero_mul]
  exact hne

/-- **C3 (amended).** The `imfreq_ops` constructor applies no `tanh` scaling
on any path: for every construction (fermionic or bosonic, symmetrized or
not), `cf2if(i,j)` equals the unscaled kernel value `K(n_if[i], ω_j, s)`. -/
theorem cf2if_entries_unscaled {r : ℕ} {s : statistic_t} {symmetrize : Bool}
    (nmax : ℕ) (dlr_rf : Fin r → ℝ)
    (piv : Fin (niom r s symmetrize) → Fin (kRows s nmax))
    (i : Fin (niom r s symmetrize)) (j : Fin r) :
    cf2if nmax dlr_rf piv i j = k_if (dlr_if nmax piv i) (dlr_rf j) s := rfl

/-- **C2.** For every `imfreq_ops` object (either statistic, symmetrized or
not), every DLR coefficient array `gc` with leading dimension `r`, and every
index `i` into the DLR imaginary-frequency sampling grid, `coefs2eval` at the
node `n_if[i]` equals the `i`-th entry of `coefs2vals(gc)` — exactly, in
exact arithmetic; both the scalar-valued and the array-valued branch of
`coefs2eval` are covered. -/
theorem coefs2eval_consistent_with_coefs2vals {r k : ℕ} {s : statistic_t}
    {symmetrize : Bool} (nmax : ℕ) (dlr_rf : Fin r → ℝ)
    (piv : Fin (niom r s symmetrize) → Fin (kRows s nmax))
    (i : Fin (niom r s symmetrize)) :
    (∀ gc : Fin r → ℂ,
      coefs2eval dlr_rf s gc (dlr_if nmax piv i) =
        coefs2vals_vec (cf2if nmax dlr_rf piv) gc i) ∧
    (∀ gc : Matrix (Fin r) (Fin k) ℂ, ∀ j : Fin k,
      coefs2eval_array dlr_rf s gc (dlr_if nmax piv i) j =
        coefs2vals_core (cf2if nmax dlr_rf piv) gc i j) := by
  constructor
  · intro gc
    rw [coefs2eval, coefs2vals_vec, Matrix.mulVec, Matrix.dotProduct]
    exact Finset.sum_congr rfl fun l _ => rfl
  · intro gc j
    rw [coefs2eval_array, coefs2vals_core, Matrix.mulVec, Matrix.dotProduct,
      Matrix.mul_apply]
    exact Finset.sum_congr rfl fun l _ => mul_comm _ _

/-- **C1.** For every square (non-symmetrized-bosonic) `imfreq_ops`, every
`β > 0`, and every input array `g` with leading dimension equal to the DLR
rank `r`, `coefs2vals(β, vals2coefs(β, g)) = g` in exact arithmetic, provided
the stored `cf2if` matrix is invertible (the library treats a singular LU
factor as unreachable). -/
theorem vals2coefs_coefs2vals_roundtrip {r k : ℕ}
    (cf2if_mat : Matrix (Fin r) (Fin r) ℂ) (beta : ℝ)
    (g : Matrix (Fin r) (Fin k) ℂ) (hbeta : 0 < beta)
    (hdet : IsUnit cf2if_mat.det) :
    coefs2vals cf2if_mat beta (vals2coefs cf2if_mat beta g) = g := by
  have hb : (beta : ℂ) ≠ 0 := Complex.ofReal_ne_zero.mpr (ne_of_gt hbeta)
  have h1 : (Matrix.of fun i j => g i j / (beta : ℂ)) = (beta : ℂ)⁻¹ • g := by
    ext i j
    simp [Matrix.smul_apply, div_eq_inv_mul]
  have h2 : ∀ M : Matrix (Fin r) (Fin k) ℂ,
      (Matrix.of fun i j => (beta : ℂ) * M i j) = (beta : ℂ) • M := by
    intro M
    ext i j
    simp [Matrix.smul_apply]
  rw [coefs2vals, vals2coefs, vals2coefs_core, coefs2vals_core, h1, h2,
    Matrix.mul_smul, Matrix.mul_smul, Matrix.mul_smul, smul_smul,
    mul_inv_cancel₀ hb, one_smul, ← Matrix.mul_assoc,
    Matrix.mul_nonsing_inv _ hdet, Matrix.one_mul]

/-- **C10.** After any `imfreq_ops` construction, the imaginary-frequency
node vector returned by `get_ifnodes` is strictly increasing: the selected
pivots, being distinct, once sorted ascending and shifted by `−nmax` form a
strictly increasing integer list with no duplicates. -/
theorem dlr_if_list_strictly_increasing (nmax : ℕ) (piv : List ℕ)
    (hnd : piv.Nodup) :
    List.Sorted (· < ·) (dlr_if_list nmax piv) := by
  have hperm : List.Perm (piv.insertionSort (· ≤ ·)) piv :=
    List.perm_insertionSort _ piv
  have hnd' : (sortPiv piv).Nodup := by
    rw [sortPiv]
    exact hperm.nodup_iff.mpr hnd
  have hle : List.Sorted (· ≤ ·) (sortPiv piv) :=
    List.sorted_insertionSort (· ≤ ·) piv
  have hlt : List.Sorted (· < ·) (sortPiv piv) := hle.lt_of_le hnd'
  rw [dlr_if_list]
  exact List.Pairwise.map (fun m : ℕ => (m : ℤ) - nmax)
    (fun a b hab => sub_lt_sub_right (by exact_mod_cast hab) (nmax : ℤ)) hlt

/-- Witness for C10 at `nmax = 1`, `piv = [3, 1, 2]`. -/
theorem dlr_if_list_strictly_increasing_witness :
    ([3, 1, 2] : List ℕ).Nodup ∧
      List.Sorted (· < ·) (dlr_if_list 1 [3, 1, 2]) :=
  ⟨by decide, dlr_if_list_strictly_increasing 1 [3, 1, 2] (by decide)⟩

/-- `getD` on a left append stays in the left list. -/
theorem getD_append_left_of_lt {α : Type} (l l' : List α) (i : ℕ) (d : α)
    (hi : i < l.length) : (l ++ l').getD i d = l.getD i d := by
  induction l generalizing i with
  | nil => exact absurd hi (by simp)
  | cons a t ih =>
    cases i with
    | zero => rfl
    | succ j => exact ih j (by simpa using hi)

/-- `getD` at the first position past a left append. -/
theorem getD_append_right_self {α : Type} (l : List α) (x d : α) :
    (l ++ [x]).getD l.length d = x := by
  induction l with
  | nil => rfl
  | cons a t ih => simpa using ih

/-- `getD` after `set` at a different position. -/
theorem getD_set_ne {α : Type} (l : List α) (i j : ℕ) (x d : α)
    (hij : i ≠ j) : (l.set i x).getD j d = l.getD j d := by
  induction l generalizing i j with
  | nil => rfl
  | cons a t ih =>
    cases i with
    | zero =>
      cases j with
      | zero => exact absurd rfl hij
      | succ j' => rfl
    | succ i' =>
      cases j with
      | zero => rfl
      | succ j' => exact ih i' j' fun hc => hij (by rw [hc])

/-- `getD` after `set` at the same (in-range) position. -/
theorem getD_set_self {α : Type} (l : List α) (i : ℕ) (x d : α)
    (hi : i < l.length) : (l.set i x).getD i d = x := by
  induction l generalizing i with
  | nil => exact absurd hi (by simp)
  | cons a t ih =>
    cases i with
    | zero => rfl
    | succ j => exact ih j (by simpa using hi)

/-- Length of the transposed copy. -/
theorem transposeFlat_length (rows cols : ℕ) (a : List ℂ) :
    (transposeFlat rows cols a).length = cols * rows := by
  rw [transposeFlat, List.length_flatMap]
  simp [Function.comp_def]

/-- Length of the buffer written by `getrs`. -/
theorem getrsFlat_length {r : ℕ} (cfm : Matrix (Fin r) (Fin r) ℂ)
    (nrhs : ℕ) (b : List ℂ) : (getrsFlat cfm nrhs b).length = nrhs * r := by
  rw [getrsFlat, List.length_flatMap]
  simp [Function.comp_def]

/-- Length of the buffer allocated by `coefs2vals`. -/
theorem matmulFlat_length {m r : ℕ} (cfm : Matrix (Fin m) (Fin r) ℂ)
    (k : ℕ) (b : List ℂ) : (matmulFlat cfm k b).length = m * k := by
  rw [matmulFlat, List.length_flatMap]
  simp [Function.comp_def]

/-- Frame property of the two-allocation call shape (allocate a temporary,
overwrite it in place, allocate the result): every buffer that existed
before the call is untouched. -/
theorem heap_two_alloc_frame {α : Type} (h : List α) (x y z d : α)
    (i : ℕ) (hi : i < h.length) :
    (((h ++ [x]).set h.length y) ++ [z]).getD i d = h.getD i d := by
  rw [getD_append_left_of_lt _ _ _ _ (by simp; omega),
    getD_set_ne _ _ _ _ _ (by omega),
    getD_append_left_of_lt _ _ _ _ hi]

/-- The result buffer of the two-allocation call shape sits at the fresh
position `h.length + 1`. -/
theorem heap_two_alloc_top {α : Type} (h : List α) (x y z d : α) :
    (((h ++ [x]).set h.length y) ++ [z]).getD (h.length + 1) d = z := by
  have hl : ((h ++ [x]).set h.length y).length = h.length + 1 := by simp
  rw [← hl, getD_append_right_self]

/-- **C9.** `vals2coefs` and `coefs2vals` are pure with respect to caller
data: on the allocation model, each call returns a freshly allocated buffer
(its heap position did not exist before the call, so the operator and the
caller hold no reference to it and it is distinct from `g`), the caller's
buffer `g` — and every other pre-existing buffer — is unchanged after the
call, and the result has the same shape as `g` (`r` rows by `g.size / r`
columns).  The in-place `getrs` of `vals2coefs` only ever writes the
freshly allocated temporary. -/
theorem transforms_pure_wrt_caller_data {r : ℕ}
    (cfm : Matrix (Fin r) (Fin r) ℂ) (h : List (List ℂ)) (gid : ℕ)
    (hgid : gid < h.length) :
    ((vals2coefs_heap cfm h gid).2 = h.length + 1 ∧
      (vals2coefs_heap cfm h gid).2 ≠ gid ∧
      (vals2coefs_heap cfm h gid).1.length = h.length + 2 ∧
      (∀ i, i < h.length →
        (vals2coefs_heap cfm h gid).1.getD i [] = h.getD i []) ∧
      (r ∣ (h.getD gid []).length →
        ((vals2coefs_heap cfm h gid).1.getD
            (vals2coefs_heap cfm h gid).2 []).length =
          (h.getD gid []).length)) ∧
    ((coefs2vals_heap cfm h gid).2 = h.length ∧
      (coefs2vals_heap cfm h gid).2 ≠ gid ∧
      (coefs2vals_heap cfm h gid).1.length = h.length + 1 ∧
      (∀ i, i < h.length →
        (coefs2vals_heap cfm h gid).1.getD i [] = h.getD i []) ∧
      (r ∣ (h.getD gid []).length →
        ((coefs2vals_heap cfm h gid).1.getD
            (coefs2vals_heap cfm h gid).2 []).length =
          (h.getD gid []).length)) := by
  constructor
  · simp only [vals2coefs_heap]
    refine ⟨by trivial, by omega, by simp, ?_, ?_⟩
    · intro i hi
      exact heap_two_alloc_frame h _ _ _ _ i hi
    · intro hdvd
      rw [heap_two_alloc_top, transposeFlat_length]
      exact Nat.mul_div_cancel' hdvd
  · simp only [coefs2vals_heap]
    refine ⟨by trivial, by omega, by simp, ?_, ?_⟩
    · intro i hi
      exact getD_append_left_of_lt _ _ _ _ hi
    · intro hdvd
      rw [getD_append_right_self, matmulFlat_length]
      exact Nat.mul_div_cancel' hdvd

/-- Witness for C9: a one-buffer heap holding the single-entry array `[1]`,
`r = 1`, `cf2if` the `1 × 1` identity. -/
theorem transforms_pure_wrt_caller_data_witness :
    (0 < [[(1 : ℂ)]].length) ∧
    (((vals2coefs_heap (1 : Matrix (Fin 1) (Fin 1) ℂ) [[(1 : ℂ)]] 0).2 =
          [[(1 : ℂ)]].length + 1 ∧
        (vals2coefs_heap (1 : Matrix (Fin 1) (Fin 1) ℂ) [[(1 : ℂ)]] 0).2 ≠ 0 ∧
        (vals2coefs_heap (1 : Matrix (Fin 1) (Fin 1) ℂ)
            [[(1 : ℂ)]] 0).1.length = [[(1 : ℂ)]].length + 2 ∧
        (∀ i, i < [[(1 : ℂ)]].length →
          (vals2coefs_heap (1 : Matrix (Fin 1) (Fin 1) ℂ)
              [[(1 : ℂ)]] 0).1.getD i [] = [[(1 : ℂ)]].getD i []) ∧
        (1 ∣ ([[(1 : ℂ)]].getD 0 []).length →
          ((vals2coefs_heap (1 : Matrix (Fin 1) (Fin 1) ℂ)
                [[(1 : ℂ)]] 0).1.getD
              (vals2coefs_heap (1 : Matrix (Fin 1) (Fin 1) ℂ)
                [[(1 : ℂ)]] 0).2 []).length =
            ([[(1 : ℂ)]].getD 0 []).length)) ∧
      ((coefs2vals_heap (1 : Matrix (Fin 1) (Fin 1) ℂ) [[(1 : ℂ)]] 0).2 =
          [[(1 : ℂ)]].length ∧
        (coefs2vals_heap (1 : Matrix (Fin 1) (Fin 1) ℂ) [[(1 : ℂ)]] 0).2 ≠ 0 ∧
        (coefs2vals_heap (1 : Matrix (Fin 1) (Fin 1) ℂ)
            [[(1 : ℂ)]] 0).1.length = [[(1 : ℂ)]].length + 1 ∧
        (∀ i, i < [[(1 : ℂ)]].length →
          (coefs2vals_heap (1 : Matrix (Fin 1) (Fin 1) ℂ)
              [[(1 : ℂ)]] 0).1.getD i [] = [[(1 : ℂ)]].getD i []) ∧
        (1 ∣ ([[(1 : ℂ)]].getD 0 []).length →
          ((coefs2vals_heap (1 : Matrix (Fin 1) (Fin 1) ℂ)
                [[(1 : ℂ)]] 0).1.getD
              (coefs2vals_heap (1 : Matrix (Fin 1) (Fin 1) ℂ)
                [[(1 : ℂ)]] 0).2 []).length =
            ([[(1 : ℂ)]].getD 0 []).length))) :=
  ⟨by norm_num,
    transforms_pure_wrt_caller_data (1 : Matrix (Fin 1) (Fin 1) ℂ)
      [[(1 : ℂ)]] 0 (by norm_num)⟩

/-- Witness for C1 at `r = k = 1`, `cf2if = 1`, `β = 1`, `g = (37)`. -/
theorem vals2coefs_coefs2vals_roundtrip_witness :
    (0 < (1 : ℝ) ∧ IsUnit (1 : Matrix (Fin 1) (Fin 1) ℂ).det) ∧
    coefs2vals (1 : Matrix (Fin 1) (Fin 1) ℂ) 1
        (vals2coefs (1 : Matrix (Fin 1) (Fin 1) ℂ) 1
          (Matrix.of fun _ _ : Fin 1 => (37 : ℂ))) =
      (Matrix.of fun _ _ : Fin 1 => (37 : ℂ)) :=
  ⟨⟨by norm_num, by simp⟩,
    vals2coefs_coefs2vals_roundtrip 1 1 _ (by norm_num) (by simp)⟩

/-! ### pickMax facts -/

theorem pickMax_eq_none {n : ℕ} (L : List (ℕ × (Fin n → ℝ)))
    (h : pickMax L = none) : L = [] := by
  cases L with
  | nil => rfl
  | cons a rest =>
    exfalso
    rw [pickMax] at h
    cases hr : pickMax rest with
    | none => rw [hr] at h; simp at h
    | some pr =>
      obtain ⟨b, rest'⟩ := pr
      rw [hr] at h
      by_cases hc : rowNorm a.2 < rowNorm b.2
      · simp only [if_pos hc] at h; simp at h
      · simp only [if_neg hc] at h; simp at h

theorem pickMax_split {n : ℕ} :
    ∀ (L : List (ℕ × (Fin n → ℝ))) (b : ℕ × (Fin n → ℝ))
      (rest : List (ℕ × (Fin n → ℝ))), pickMax L = some (b, rest) →
      ∃ l1 l2, L = l1 ++ b :: l2 ∧ rest = l1 ++ l2 := by
  intro L
  induction L with
  | nil => intro b rest h; rw [pickMax] at h; exact absurd h (by simp)
  | cons a t ih =>
    intro b rest h
    rw [pickMax] at h
    cases hr : pickMax t with
    | none =>
      rw [hr] at h
      simp only [Option.some.injEq, Prod.mk.injEq] at h
      refine ⟨[], [], ?_, h.2.symm⟩
      rw [← h.1, pickMax_eq_none t hr]
      rfl
    | some pr =>
      obtain ⟨b', rest'⟩ := pr
      rw [hr] at h
      by_cases hc : rowNorm a.2 < rowNorm b'.2
      · simp only [if_pos hc, Option.some.injEq, Prod.mk.injEq] at h
        obtain ⟨m1, m2, hsplit, hrest'⟩ := ih b' rest' hr
        refine ⟨a :: m1, m2, ?_, ?_⟩
        · rw [← h.1, hsplit]
          simp
        · rw [← h.2, hrest']
          simp
      · simp only [if_neg hc, Option.some.injEq, Prod.mk.injEq] at h
        exact ⟨[], t, by rw [← h.1]; rfl, h.2.symm⟩

theorem pickMax_max {n : ℕ} :
    ∀ (L : List (ℕ × (Fin n → ℝ))) (b : ℕ × (Fin n → ℝ))
      (rest : List (ℕ × (Fin n → ℝ))), pickMax L = some (b, rest) →
      ∀ x ∈ L, rowNorm x.2 ≤ rowNorm b.2 := by
  intro L
  induction L with
  | nil => intro b rest h; rw [pickMax] at h; exact absurd h (by simp)
  | cons a t ih =>
    intro b rest h x hx
    rw [pickMax] at h
    cases hr : pickMax t with
    | none =>
      rw [hr] at h
      simp only [Option.some.injEq, Prod.mk.injEq] at h
      have ht : t = [] := pickMax_eq_none t hr
      rcases List.mem_cons.mp hx with hxa | hxt
      · rw [hxa, ← h.1]
      · rw [ht] at hxt; exact absurd hxt (by simp)
    | some pr =>
      obtain ⟨b', rest'⟩ := pr
      rw [hr] at h
      by_cases hc : rowNorm a.2 < rowNorm b'.2
      · simp only [if_pos hc, Option.some.injEq, Prod.mk.injEq] at h
        rcases List.mem_cons.mp hx with hxa | hxt
        · rw [hxa, ← h.1]; exact le_of_lt hc
        · rw [← h.1]; exact ih b' rest' hr x hxt
      · simp only [if_neg hc, Option.some.injEq, Prod.mk.injEq] at h
        rcases List.mem_cons.mp hx with hxa | hxt
        · rw [hxa, ← h.1]
        · rw [← h.1]
          exact le_trans (ih b' rest' hr x hxt) (not_lt.mp hc)

theorem pickMax_mem {n : ℕ} (L : List (ℕ × (Fin n → ℝ)))
    (b : ℕ × (Fin n → ℝ)) (rest : List (ℕ × (Fin n → ℝ)))
    (h : pickMax L = some (b, rest)) : b ∈ L := by
  obtain ⟨l1, l2, hsplit, -⟩ := pickMax_split L b rest h
  rw [hsplit]
  simp

theorem pickMax_rest_mem {n : ℕ} (L : List (ℕ × (Fin n → ℝ)))
    (b : ℕ × (Fin n → ℝ)) (rest : List (ℕ × (Fin n → ℝ)))
    (h : pickMax L = some (b, rest)) : ∀ x ∈ rest, x ∈ L := by
  obtain ⟨l1, l2, hsplit, hrest⟩ := pickMax_split L b rest h
  intro x hx
  rw [hrest] at hx
  rw [hsplit]
  rcases List.mem_append.mp hx with h1 | h2
  · exact List.mem_append.mpr (Or.inl h1)
  · exact List.mem_append.mpr (Or.inr (List.mem_cons.mpr (Or.inr h2)))

theorem pickMax_head_max {n : ℕ} (a : ℕ × (Fin n → ℝ))
    (M : List (ℕ × (Fin n → ℝ)))
    (h : ∀ x ∈ M, rowNorm x.2 ≤ rowNorm a.2) :
    pickMax (a :: M) = some (a, M) := by
  rw [pickMax]
  cases hr : pickMax M with
  | none => rw [pickMax_eq_none M hr]
  | some pr =>
    obtain ⟨b, rest'⟩ := pr
    have hle : rowNorm b.2 ≤ rowNorm a.2 :=
      h b (pickMax_mem M b rest' hr)
    show (if rowNorm a.2 < rowNorm b.2 then some (b, a :: rest')
        else some (a, M)) = some (a, M)
    rw [if_neg (not_lt.mpr hle)]

/-! ### pivrgsGo equations -/

theorem pivrgsGo_zero {n : ℕ} (thresh : ℝ) (L : List (ℕ × (Fin n → ℝ))) :
    pivrgsGo thresh 0 L = [] := rfl

theorem pivrgsGo_succ_none {n : ℕ} (thresh : ℝ) (fuel : ℕ)
    (L : List (ℕ × (Fin n → ℝ))) (h : pickMax L = none) :
    pivrgsGo thresh (fuel + 1) L = [] := by
  rw [pivrgsGo, h]

theorem pivrgsGo_succ_stop {n : ℕ} (thresh : ℝ) (fuel : ℕ)
    (L : List (ℕ × (Fin n → ℝ))) (p : ℕ × (Fin n → ℝ))
    (rest : List (ℕ × (Fin n → ℝ))) (h : pickMax L = some (p, rest))
    (hth : rowNorm p.2 < thresh) : pivrgsGo thresh (fuel + 1) L = [] := by
  rw [pivrgsGo, h]
  simp only [if_pos hth]

theorem pivrgsGo_succ_sel {n : ℕ} (thresh : ℝ) (fuel : ℕ)
    (L : List (ℕ × (Fin n → ℝ))) (p : ℕ × (Fin n → ℝ))
    (rest : List (ℕ × (Fin n → ℝ))) (h : pickMax L = some (p, rest))
    (hth : ¬rowNorm p.2 < thresh) :
    pivrgsGo thresh (fuel + 1) L =
      (p.2, p.1) ::
        pivrgsGo thresh fuel
          (rest.map fun q => (q.1, orth2 (normalizeRow p.2) q.2)) := by
  rw [pivrgsGo, h]
  simp only [if_neg hth]

/-! ### list helpers -/

theorem mem_zip_range' {α : Type} (d : α) :
    ∀ (l : List α) (k i : ℕ) (x : α),
      (i, x) ∈ (List.range' k l.length).zip l → l.getD (i - k) d = x := by
  intro l
  induction l with
  | nil => intro k i x h; exact absurd h (by simp)
  | cons a t ih =>
    intro k i x h
    have hsplit : (List.range' k (a :: t).length).zip (a :: t) =
        (k, a) :: (List.range' (k + 1) t.length).zip t := rfl
    rw [hsplit] at h
    rcases List.mem_cons.mp h with h1 | h2
    · obtain ⟨hik, hxa⟩ := Prod.mk.injEq .. ▸ h1
      rw [hik, Nat.sub_self, ← hxa]
      rfl
    · have hik : k + 1 ≤ i := by
        have hmem := (List.of_mem_zip h2).1
        rw [List.mem_range'_1] at hmem
        exact hmem.1
      have hrec := ih (k + 1) i x h2
      have hidx : i - k = (i - (k + 1)) + 1 := by omega
      rw [hidx]
      exact hrec

theorem forall2_eq_map {α β : Type} (R : α → β → Prop) (f : α → β)
    (hf : ∀ a b, R a b → b = f a) :
    ∀ {l₁ : List α} {l₂ : List β}, List.Forall₂ R l₁ l₂ → l₂ = l₁.map f := by
  intro l₁ l₂ h
  induction h with
  | nil => rfl
  | cons hab htail ihtail =>
    rw [List.map_cons, ← ihtail, ← hf _ _ hab]

theorem forall2_mem_right {α β : Type} (R : α → β → Prop) :
    ∀ {l₁ : List α} {l₂ : List β}, List.Forall₂ R l₁ l₂ →
      ∀ b ∈ l₂, ∃ a ∈ l₁, R a b := by
  intro l₁ l₂ h
  induction h with
  | nil => intro b hb; exact absurd hb (by simp)
  | cons hab htail ih =>
    intro b hb
    rcases List.mem_cons.mp hb with h1 | h2
    · exact ⟨_, by simp, h1 ▸ hab⟩
    · obtain ⟨a, ha, har⟩ := ih b h2
      exact ⟨a, by simp [ha], har⟩

theorem forall2_pullback {n : ℕ} (f : (Fin n → ℝ) → (Fin n → ℝ))
    (rest : List (ℕ × (Fin n → ℝ))) :
    ∀ {out : List ((Fin n → ℝ) × ℕ)} {W' : List (Fin n → ℝ)},
      List.Forall₂ (fun s w => (s.2, w) ∈ rest.map fun q => (q.1, f q.2))
        out W' →
      ∃ W₀ : List (Fin n → ℝ), W₀.map f = W' ∧
        List.Forall₂ (fun s u => (s.2, u) ∈ rest) out W₀ := by
  intro out W' h
  induction h with
  | nil => exact ⟨[], rfl, List.Forall₂.nil⟩
  | cons hab htail ih =>
    obtain ⟨W₀, hmap, hmem⟩ := ih
    obtain ⟨q, hq, heq⟩ := List.mem_map.mp hab
    obtain ⟨hfst, hsnd⟩ := Prod.mk.injEq .. ▸ heq
    refine ⟨q.2 :: W₀, ?_, List.Forall₂.cons ?_ hmem⟩
    · rw [List.map_cons, hmap, hsnd]
    · rw [← hfst]
      exact (Prod.mk.eta (p := q)) ▸ hq

theorem renum_cons {α : Type} (k : ℕ) (a : α × ℕ) (out : List (α × ℕ)) :
    renum k (a :: out) = (a.1, k) :: renum (k + 1) out := rfl

theorem zip_map_snd {n : ℕ} (f : (Fin n → ℝ) → (Fin n → ℝ)) :
    ∀ (l : List ℕ) (w : List (Fin n → ℝ)),
      ((l.zip w).map fun q => (q.1, f q.2)) = l.zip (w.map f) := by
  intro l
  induction l with
  | nil => intro w; rfl
  | cons a t ih =>
    intro w
    cases w with
    | nil => rfl
    | cons b tw =>
      rw [List.zip_cons_cons, List.map_cons, List.map_cons,
        List.zip_cons_cons, ih]

/-! ### the simulation lemma -/

theorem pivrgsGo_sim {n : ℕ} (thresh : ℝ) :
    ∀ (fuel : ℕ) (L : List (ℕ × (Fin n → ℝ))), L.length ≤ fuel →
      ∃ W : List (Fin n → ℝ),
        List.Forall₂ (fun s w => (s.2, w) ∈ L) (pivrgsGo thresh fuel L) W ∧
        ∀ k : ℕ,
          pivrgsGo thresh W.length ((List.range' k W.length).zip W) =
            renum k (pivrgsGo thresh fuel L) := by
  intro fuel
  induction fuel with
  | zero =>
    intro L hL
    exact ⟨[], by rw [pivrgsGo_zero]; exact List.Forall₂.nil, fun k => rfl⟩
  | succ fuel ih =>
    intro L hL
    cases hpk : pickMax L with
    | none =>
      refine ⟨[], ?_, fun k => ?_⟩
      · rw [pivrgsGo_succ_none thresh fuel L hpk]
        exact List.Forall₂.nil
      · rw [pivrgsGo_succ_none thresh fuel L hpk]
        rfl
    | some pr =>
      obtain ⟨p, rest⟩ := pr
      by_cases hth : rowNorm p.2 < thresh
      · refine ⟨[], ?_, fun k => ?_⟩
        · rw [pivrgsGo_succ_stop thresh fuel L p rest hpk hth]
          exact List.Forall₂.nil
        · rw [pivrgsGo_succ_stop thresh fuel L p rest hpk hth]
          rfl
      · have hout := pivrgsGo_succ_sel thresh fuel L p rest hpk hth
        obtain ⟨l1, l2, hsplit, hrest⟩ := pickMax_split L p rest hpk
        have hlr : rest.length + 1 = L.length := by
          rw [hsplit, hrest]
          simp
          omega
        have hlen1 :
            (rest.map fun q => (q.1, orth2 (normalizeRow p.2) q.2)).length ≤
              fuel := by
          rw [List.length_map]
          omega
        obtain ⟨W', hW'mem, hW'run⟩ := ih _ hlen1
        obtain ⟨W₀, hmap, hW₀mem⟩ :=
          forall2_pullback (orth2 (normalizeRow p.2)) rest hW'mem
        have hW₀len : W₀.length = W'.length := by
          rw [← hmap, List.length_map]
        refine ⟨p.2 :: W₀, ?_, fun k => ?_⟩
        · rw [hout]
          refine List.Forall₂.cons ?_
            (hW₀mem.imp fun a b hmem => pickMax_rest_mem L p rest hpk _ hmem)
          show (p.1, p.2) ∈ L
          rw [Prod.mk.eta]
          exact pickMax_mem L p rest hpk
        · have hcons : (List.range' k (p.2 :: W₀).length).zip (p.2 :: W₀) =
              (k, p.2) :: (List.range' (k + 1) W₀.length).zip W₀ := rfl
          have hmax : ∀ x ∈ (List.range' (k + 1) W₀.length).zip W₀,
              rowNorm x.2 ≤ rowNorm p.2 := by
            intro x hx
            obtain ⟨s, hs, hrel⟩ :=
              forall2_mem_right _ hW₀mem x.2 (List.of_mem_zip hx).2
            exact pickMax_max L p rest hpk (s.2, x.2)
              (pickMax_rest_mem L p rest hpk (s.2, x.2) hrel)
          have hpick :
              pickMax ((k, p.2) :: (List.range' (k + 1) W₀.length).zip W₀) =
                some ((k, p.2), (List.range' (k + 1) W₀.length).zip W₀) :=
            pickMax_head_max _ _ hmax
          rw [hcons, show (p.2 :: W₀).length = W₀.length + 1 from rfl,
            pivrgsGo_succ_sel thresh W₀.length _ (k, p.2) _ hpick hth,
            zip_map_snd, hmap, hW₀len, hW'run (k + 1), hout, renum_cons]

/-! ### pivrgs equations and renum projections -/

theorem pivrgs_eq_none {n : ℕ} (A : List (Fin n → ℝ)) (eps : ℝ)
    (h : pickMax ((List.range A.length).zip A) = none) :
    pivrgs A eps = ([], [], []) := by
  simp only [pivrgs, h]

theorem pivrgs_eq_some {n : ℕ} (A : List (Fin n → ℝ)) (eps : ℝ)
    (p : ℕ × (Fin n → ℝ)) (rest : List (ℕ × (Fin n → ℝ)))
    (h : pickMax ((List.range A.length).zip A) = some (p, rest)) :
    pivrgs A eps =
      ((pivrgsGo (eps * rowNorm p.2) A.length
          ((List.range A.length).zip A)).map fun s => normalizeRow s.1,
        (pivrgsGo (eps * rowNorm p.2) A.length
          ((List.range A.length).zip A)).map fun s => rowNorm s.1,
        (pivrgsGo (eps * rowNorm p.2) A.length
          ((List.range A.length).zip A)).map fun s => s.2) := by
  simp only [pivrgs, h]

theorem renum_map_comp_fst {α β : Type} (g : α → β) :
    ∀ (k : ℕ) (out : List (α × ℕ)),
      ((renum k out).map fun s => g s.1) = out.map fun s => g s.1 := by
  intro k out
  induction out generalizing k with
  | nil => rfl
  | cons a t ih => rw [renum_cons, List.map_cons, List.map_cons, ih]

theorem renum_map_snd {α : Type} :
    ∀ (k : ℕ) (out : List (α × ℕ)),
      ((renum k out).map fun s => s.2) = List.range' k out.length := by
  intro k out
  induction out generalizing k with
  | nil => rfl
  | cons a t ih =>
    rw [renum_cons, List.map_cons, ih]
    rfl

/-- **C7.** Re-running `pivrgs` on the sub-matrix formed by the pivot rows of
`A` (taken in their selected order) returns the pivot vector `(0, 1, …, r−1)`
and reproduces the same `Q` (and the same norms), exactly, in exact
arithmetic. -/
theorem pivrgs_pivot_idempotent {n : ℕ} (A : List (Fin n → ℝ)) (eps : ℝ) :
    pivrgs ((pivrgs A eps).2.2.map fun i => A.getD i fun _ => 0) eps =
      ((pivrgs A eps).1, (pivrgs A eps).2.1,
        List.range (pivrgs A eps).2.2.length) := by
  cases hpk : pickMax ((List.range A.length).zip A) with
  | none =>
    simp only [pivrgs_eq_none A eps hpk, List.map_nil]
    rw [pivrgs_eq_none [] eps rfl]
    rfl
  | some pr =>
    obtain ⟨p, rest⟩ := pr
    have hA := pivrgs_eq_some A eps p rest hpk
    have hsim := pivrgsGo_sim (eps * rowNorm p.2) A.length
      ((List.range A.length).zip A) (by simp)
    obtain ⟨W, hWmem, hWrun⟩ := hsim
    have hWB : W =
        (pivrgsGo (eps * rowNorm p.2) A.length
          ((List.range A.length).zip A)).map
          fun s => A.getD s.2 fun _ => 0 := by
      refine forall2_eq_map _ _ ?_ hWmem
      intro s w hmem
      have hmem' : (s.2, w) ∈ (List.range' 0 A.length).zip A := by
        rw [← List.range_eq_range']
        exact hmem
      have hval := mem_zip_range' (fun _ => (0 : ℝ)) A 0 s.2 w hmem'
      rw [Nat.sub_zero] at hval
      exact hval.symm
    have hWmax : ∀ w ∈ W, rowNorm w ≤ rowNorm p.2 := by
      intro w hw
      obtain ⟨s, hs, hrel⟩ := forall2_mem_right _ hWmem w hw
      exact pickMax_max _ p rest hpk (s.2, w) hrel
    have hAne : A.length ≠ 0 := by
      intro h0
      have hz : (List.range A.length).zip A = [] := by
        rw [h0]
        rfl
      rw [hz] at hpk
      rw [pickMax] at hpk
      exact absurd hpk (by simp)
    obtain ⟨fuel', hfuel⟩ : ∃ m, A.length = m + 1 := ⟨A.length - 1, by omega⟩
    have hAp : A.getD p.1 (fun _ => (0 : ℝ)) = p.2 := by
      have hpmem : (p.1, p.2) ∈ (List.range' 0 A.length).zip A := by
        rw [← List.range_eq_range', Prod.mk.eta]
        exact pickMax_mem _ p rest hpk
      have hval := mem_zip_range' (fun _ => (0 : ℝ)) A 0 p.1 p.2 hpmem
      rw [Nat.sub_zero] at hval
      exact hval
    by_cases hth : rowNorm p.2 < eps * rowNorm p.2
    · have hout : pivrgsGo (eps * rowNorm p.2) A.length
          ((List.range A.length).zip A) = [] := by
        have h1 := pivrgsGo_succ_stop (eps * rowNorm p.2) fuel'
          ((List.range A.length).zip A) p rest hpk hth
        rw [← hfuel] at h1
        exact h1
      simp only [hA, hout, List.map_nil]
      rw [pivrgs_eq_none [] eps rfl]
      rfl
    · have hout : pivrgsGo (eps * rowNorm p.2) A.length
          ((List.range A.length).zip A) =
          (p.2, p.1) :: pivrgsGo (eps * rowNorm p.2) fuel'
            (rest.map fun q => (q.1, orth2 (normalizeRow p.2) q.2)) := by
        have h1 := pivrgsGo_succ_sel (eps * rowNorm p.2) fuel'
          ((List.range A.length).zip A) p rest hpk hth
        rw [← hfuel] at h1
        exact h1
      have hWc : W = p.2 :: ((pivrgsGo (eps * rowNorm p.2) fuel'
          (rest.map fun q => (q.1, orth2 (normalizeRow p.2) q.2))).map
            fun s => A.getD s.2 fun _ => 0) := by
        rw [hWB, hout, List.map_cons, hAp]
      have hzipB : (List.range W.length).zip W =
          ((0 : ℕ), p.2) ::
            (List.range' 1 ((pivrgsGo (eps * rowNorm p.2) fuel'
              (rest.map fun q => (q.1, orth2 (normalizeRow p.2) q.2))).map
                fun s => A.getD s.2 fun _ => 0).length).zip
              ((pivrgsGo (eps * rowNorm p.2) fuel'
                (rest.map fun q => (q.1, orth2 (normalizeRow p.2) q.2))).map
                  fun s => A.getD s.2 fun _ => 0) := by
        rw [hWc, List.range_eq_range']
        rfl
      have hpickB : pickMax ((List.range W.length).zip W) =
          some (((0 : ℕ), p.2),
            (List.range' 1 ((pivrgsGo (eps * rowNorm p.2) fuel'
              (rest.map fun q => (q.1, orth2 (normalizeRow p.2) q.2))).map
                fun s => A.getD s.2 fun _ => 0).length).zip
              ((pivrgsGo (eps * rowNorm p.2) fuel'
                (rest.map fun q => (q.1, orth2 (normalizeRow p.2) q.2))).map
                  fun s => A.getD s.2 fun _ => 0)) := by
        rw [hzipB]
        apply pickMax_head_max
        intro x hx
        refine hWmax x.2 ?_
        rw [hWc]
        exact List.mem_cons.mpr (Or.inr (List.of_mem_zip hx).2)
      simp only [hA, List.map_map]
      have hBW : ((pivrgsGo (eps * rowNorm p.2) A.length
          ((List.range A.length).zip A)).map
            ((fun i => A.getD i fun _ => 0) ∘ fun s => s.2)) = W := hWB.symm
      rw [hBW, pivrgs_eq_some W eps ((0 : ℕ), p.2) _ hpickB]
      have hrun : pivrgsGo (eps * rowNorm ((0 : ℕ), p.2).2) W.length
          ((List.range W.length).zip W) =
          renum 0 (pivrgsGo (eps * rowNorm p.2) A.length
            ((List.range A.length).zip A)) := by
        rw [List.range_eq_range']
        exact hWrun 0
      rw [hrun, renum_map_comp_fst, renum_map_comp_fst, renum_map_snd,
        List.length_map, List.range_eq_range', List.range_eq_range']

/-- The pivots selected by the main loop are distinct row indices drawn from
the input (each step selects among the remaining rows only). -/
theorem pivrgsGo_piv_nodup {n : ℕ} (thresh : ℝ) :
    ∀ (fuel : ℕ) (L : List (ℕ × (Fin n → ℝ))),
      (L.map Prod.fst).Nodup →
      ((pivrgsGo thresh fuel L).map Prod.snd).Nodup ∧
      ∀ i ∈ (pivrgsGo thresh fuel L).map Prod.snd, i ∈ L.map Prod.fst := by
  intro fuel
  induction fuel with
  | zero =>
    intro L h
    exact ⟨by rw [pivrgsGo_zero]; exact List.nodup_nil,
      by rw [pivrgsGo_zero]; simp⟩
  | succ fuel ih =>
    intro L hnd
    cases hpk : pickMax L with
    | none =>
      rw [pivrgsGo_succ_none thresh fuel L hpk]
      exact ⟨List.nodup_nil, by simp⟩
    | some pr =>
      obtain ⟨p, rest⟩ := pr
      by_cases hth : rowNorm p.2 < thresh
      · rw [pivrgsGo_succ_stop thresh fuel L p rest hpk hth]
        exact ⟨List.nodup_nil, by simp⟩
      · rw [pivrgsGo_succ_sel thresh fuel L p rest hpk hth]
        obtain ⟨l1, l2, hsplit, hrest⟩ := pickMax_split L p rest hpk
        have hfst : ((rest.map fun q =>
            (q.1, orth2 (normalizeRow p.2) q.2)).map Prod.fst) =
            rest.map Prod.fst := by
          rw [List.map_map]
          rfl
        have hsub : ∀ i ∈ rest.map Prod.fst, i ∈ L.map Prod.fst := by
          intro i hi
          obtain ⟨x, hx, hxe⟩ := List.mem_map.mp hi
          exact List.mem_map.mpr ⟨x, pickMax_rest_mem L p rest hpk x hx, hxe⟩
        have hrsub : (rest.map Prod.fst).Sublist (L.map Prod.fst) := by
          rw [hrest, hsplit]
          exact (List.Sublist.append_left (l2.sublist_cons_self p) l1).map
            Prod.fst
        have hp_notin : p.1 ∉ rest.map Prod.fst := by
          intro hmem
          rw [hrest] at hmem
          rw [hsplit] at hnd
          simp only [List.map_append, List.map_cons] at hnd hmem
          obtain ⟨-, hnd2, hdisj⟩ := List.nodup_append.mp hnd
          rcases List.mem_append.mp hmem with h1 | h2
          · exact hdisj h1 (List.mem_cons_self _ _)
          · exact (List.nodup_cons.mp hnd2).1 h2
        obtain ⟨ihnd, ihsub⟩ := ih _ (by rw [hfst]; exact hnd.sublist hrsub)
        constructor
        · rw [List.map_cons]
          refine List.nodup_cons.mpr ⟨?_, ihnd⟩
          intro hmem
          exact hp_notin (by rw [← hfst]; exact ihsub _ hmem)
        · intro i hi
          rw [List.map_cons] at hi
          rcases List.mem_cons.mp hi with h1 | h2
          · rw [h1, hsplit]
            simp
          · exact hsub i (by rw [← hfst]; exact ihsub i h2)

/-- The pivot vector returned by `pivrgs` has no duplicates. -/
theorem pivrgs_piv_nodup {n : ℕ} (A : List (Fin n → ℝ)) (eps : ℝ) :
    (pivrgs A eps).2.2.Nodup := by
  cases hpk : pickMax ((List.range A.length).zip A) with
  | none =>
    rw [pivrgs_eq_none A eps hpk]
    exact List.nodup_nil
  | some pr =>
    obtain ⟨p, rest⟩ := pr
    rw [pivrgs_eq_some A eps p rest hpk]
    have hnd : (((List.range A.length).zip A).map Prod.fst).Nodup := by
      rw [List.map_fst_zip _ _ (by simp)]
      exact List.nodup_range A.length
    exact (pivrgsGo_piv_nodup (eps * rowNorm p.2) A.length _ hnd).1

end Cppdlr
